import Mathlib

/-!
Verification of the FileSieve deduplication engine against its design
specification.  The development shallowly embeds the Python sources
(`cache.py`, `exact.py`, `media.py`, `sieve.py`) as executable Lean
functions: file I/O (hashing, byte comparison, moving, probing) is
abstracted into explicit oracle parameters, and the SQLite signature
table is modelled as a list of rows keyed by `path`.
-/

namespace FileSieve

/-! ## Python string ordering

Python compares `str` values lexicographically by Unicode code point.
We model that order on Lean strings via their code-point lists. -/

def lexLe : List Nat → List Nat → Bool
  | [], _ => true
  | _ :: _, [] => false
  | x :: xs, y :: ys => x < y || (x == y && lexLe xs ys)

def strLe (a b : String) : Bool :=
  lexLe (a.data.map Char.toNat) (b.data.map Char.toNat)

/-! ## Signature cache (`cache.py`)

The SQLite table `signatures` has `path` as primary key, identity
columns `size`, `mtime_ns`, `dev`, `ino` (all `NOT NULL`), four
nullable fingerprint columns and the `NOT NULL` column
`last_seen_run`.  We model the table as a list of rows; the primary
key constraint appears as the well-formedness predicate `cacheWf`. -/

structure CacheRecord where
  quick_hash : Option String
  full_hash : Option String
  media_sig : Option String
  media_meta : Option String
  deriving DecidableEq, Repr

structure Row where
  path : String
  size : Int
  mtime_ns : Int
  dev : Int
  ino : Int
  quick_hash : Option String
  full_hash : Option String
  media_sig : Option String
  media_meta : Option String
  last_seen_run : String
  deriving DecidableEq, Repr

abbrev Cache := List Row

def cacheWf (c : Cache) : Prop := (c.map Row.path).Nodup

/-- `SignatureCache.get`: the `SELECT ... WHERE path = ? AND size = ?
AND mtime_ns = ? AND dev = ? AND ino = ?` lookup. -/
def SignatureCache.get (c : Cache) (path : String) (size mtime_ns dev ino : Int) :
    Option CacheRecord :=
  match c.find? (fun r =>
      r.path == path && r.size == size && r.mtime_ns == mtime_ns &&
        r.dev == dev && r.ino == ino) with
  | none => none
  | some r => some ⟨r.quick_hash, r.full_hash, r.media_sig, r.media_meta⟩

/-- The `CASE WHEN (size/mtime_ns/dev/ino differ) ...` guard shared by the
four fingerprint columns of the `ON CONFLICT` update. -/
def identityChanged (stored : Row) (size mtime_ns dev ino : Int) : Bool :=
  stored.size != size || stored.mtime_ns != mtime_ns ||
    stored.dev != dev || stored.ino != ino

/-- One fingerprint column of the `ON CONFLICT` update: the incoming value
when the identity changed, else `COALESCE(excluded, stored)`. -/
def mergeField (changed : Bool) (incoming stored : Option String) : Option String :=
  if changed then incoming
  else
    match incoming with
    | some v => some v
    | none => stored

/-- The `DO UPDATE SET` clause applied to the conflicting row (all stored
values on the right-hand sides refer to the pre-update row). -/
def mergeRow (stored : Row) (size mtime_ns dev ino : Int) (last_seen_run : String)
    (quick_hash full_hash media_sig media_meta : Option String) : Row :=
  let changed := identityChanged stored size mtime_ns dev ino
  { path := stored.path
    size := size
    mtime_ns := mtime_ns
    dev := dev
    ino := ino
    quick_hash := mergeField changed quick_hash stored.quick_hash
    full_hash := mergeField changed full_hash stored.full_hash
    media_sig := mergeField changed media_sig stored.media_sig
    media_meta := mergeField changed media_meta stored.media_meta
    last_seen_run := last_seen_run }

/-- `SignatureCache.upsert`: `INSERT ... ON CONFLICT(path) DO UPDATE`.
A conflict on the primary key updates the stored row in place, otherwise
a fresh row is appended. -/
def SignatureCache.upsert (c : Cache) (path : String) (size mtime_ns dev ino : Int)
    (last_seen_run : String)
    (quick_hash full_hash media_sig media_meta : Option String) : Cache :=
  if c.any (fun r => r.path == path) then
    c.map (fun r =>
      if r.path == path then
        mergeRow r size mtime_ns dev ino last_seen_run
          quick_hash full_hash media_sig media_meta
      else r)
  else
    c ++ [{ path := path
            size := size
            mtime_ns := mtime_ns
            dev := dev
            ino := ino
            quick_hash := quick_hash
            full_hash := full_hash
            media_sig := media_sig
            media_meta := media_meta
            last_seen_run := last_seen_run }]

/-- `SignatureCache.prune_stale`: `DELETE FROM signatures WHERE
last_seen_run <> ?`. -/
def SignatureCache.prune_stale (c : Cache) (run_id : String) : Cache :=
  c.filter (fun r => r.last_seen_run == run_id)

/-! ### Cache lemmas -/

theorem get_cons (r : Row) (c : Cache) (p : String) (s m d i : Int) :
    SignatureCache.get (r :: c) p s m d i =
      if r.path == p && r.size == s && r.mtime_ns == m && r.dev == d && r.ino == i then
        some ⟨r.quick_hash, r.full_hash, r.media_sig, r.media_meta⟩
      else SignatureCache.get c p s m d i := by
  unfold SignatureCache.get
  cases hpred : (r.path == p && r.size == s && r.mtime_ns == m && r.dev == d && r.ino == i)
  · rw [List.find?_cons_of_neg _ (by simp [hpred]), if_neg (by simp [hpred])]
  · rw [List.find?_cons_of_pos _ (by simp [hpred]), if_pos (by simp [hpred])]

/-- The record a round-trip through `upsert` then `get` is expected to
produce, phrased from the spec's invalidation rule: a changed identity
replaces every fingerprint with the incoming value, a matching identity
takes each incoming value when non-null and otherwise retains the
stored one, and a fresh path stores the incoming values verbatim. -/
def roundTripRecord (c : Cache) (p : String) (s m d i : Int)
    (q f g h : Option String) : CacheRecord :=
  match c.find? (fun r => r.path == p) with
  | none => ⟨q, f, g, h⟩
  | some stored =>
    if identityChanged stored s m d i then ⟨q, f, g, h⟩
    else
      ⟨mergeField false q stored.quick_hash, mergeField false f stored.full_hash,
        mergeField false g stored.media_sig, mergeField false h stored.media_meta⟩

theorem upsert_cons_head (r : Row) (rest : Cache) (p : String) (s m d i : Int)
    (run : String) (q f g h : Option String) (hp : (r.path == p) = true) :
    SignatureCache.upsert (r :: rest) p s m d i run q f g h =
      mergeRow r s m d i run q f g h ::
        rest.map (fun x =>
          if x.path == p then mergeRow x s m d i run q f g h else x) := by
  simp only [SignatureCache.upsert, List.any_cons, hp, Bool.true_or, if_pos,
    List.map_cons, if_true]

theorem upsert_cons_other (r : Row) (rest : Cache) (p : String) (s m d i : Int)
    (run : String) (q f g h : Option String) (hp : (r.path == p) = false) :
    SignatureCache.upsert (r :: rest) p s m d i run q f g h =
      r :: SignatureCache.upsert rest p s m d i run q f g h := by
  unfold SignatureCache.upsert
  rw [List.any_cons, hp, Bool.false_or]
  cases ha : rest.any (fun x => x.path == p)
  · rw [if_neg (by simp [ha]), if_neg (by simp [ha]), List.cons_append]
  · rw [if_pos (by simp [ha]), if_pos (by simp [ha]), List.map_cons, if_neg (by simp [hp])]

theorem upsert_get_eq (c : Cache) (p : String) (s m d i : Int) (run : String)
    (q f g h : Option String) :
    SignatureCache.get (SignatureCache.upsert c p s m d i run q f g h) p s m d i =
      some (roundTripRecord c p s m d i q f g h) := by
  induction c with
  | nil =>
    simp [SignatureCache.upsert, SignatureCache.get, roundTripRecord]
  | cons r rest ih =>
    by_cases hp : (r.path == p) = true
    · rw [upsert_cons_head r rest p s m d i run q f g h hp, get_cons,
        if_pos (by simp [mergeRow, hp])]
      unfold roundTripRecord
      rw [show List.find? (fun x => x.path == p) (r :: rest) = some r from
        @List.find?_cons_of_pos _ _ r rest hp]
      simp only [mergeRow]
      cases hch : identityChanged r s m d i
      · simp [hch, mergeField]
      · simp [hch, mergeField]
    · rw [upsert_cons_other r rest p s m d i run q f g h (by simpa using hp),
        get_cons, if_neg (by simp [hp]), ih]
      unfold roundTripRecord
      rw [List.find?_cons_of_neg _ (by simpa using hp)]

/-! ### Claims C1, C2, C8 -/

/-- **C1** (counterexample).  The round-trip law as stated fails: with a
stored row for path `"p"` and identity `(1, 2, 3, 4)` holding
`quick_hash = "a"`, an `upsert` of the same identity with all-null
fingerprint fields followed by `get` does not return the all-null record
verbatim — the stored `quick_hash` is retained. -/
theorem upsert_get_not_verbatim :
    SignatureCache.get
      (SignatureCache.upsert
        [⟨"p", 1, 2, 3, 4, some "a", none, none, none, "r1"⟩]
        "p" 1 2 3 4 "r2" none none none none)
      "p" 1 2 3 4 ≠ some ⟨none, none, none, none⟩ := by decide

/-- **C1** (amended).  `upsert(identity, f)` followed by `get(identity)`
returns the merge of `f` with the previously stored row: `f` verbatim when
the path was absent or the stored identity tuple differs (so a changed
identity replaces all four fingerprint fields with the incoming values,
even if null, never retaining any prior fingerprint), and otherwise each
field is the incoming value when non-null, else the stored one. -/
theorem cache_roundtrip_with_invalidation (c : Cache) (p : String)
    (s m d i : Int) (run : String) (q f g h : Option String) :
    SignatureCache.get (SignatureCache.upsert c p s m d i run q f g h) p s m d i =
      some (roundTripRecord c p s m d i q f g h) ∧
    (∀ stored, c.find? (fun r => r.path == p) = some stored →
      identityChanged stored s m d i = true →
      roundTripRecord c p s m d i q f g h = ⟨q, f, g, h⟩) := by
  refine ⟨upsert_get_eq c p s m d i run q f g h, ?_⟩
  intro stored hfind hch
  unfold roundTripRecord
  rw [hfind]
  simp [hch]

/-- Witness for C1: a concrete changed-identity upsert where the stored
fingerprints are destroyed. -/
theorem cache_roundtrip_with_invalidation_witness :
    SignatureCache.get
        (SignatureCache.upsert [⟨"p", 1, 2, 3, 4, some "a", some "b", none, none, "r1"⟩]
          "p" 9 2 3 4 "r2" none none none none) "p" 9 2 3 4 =
      some (roundTripRecord [⟨"p", 1, 2, 3, 4, some "a", some "b", none, none, "r1"⟩]
        "p" 9 2 3 4 none none none none) ∧
    (∀ stored,
      List.find? (fun r => r.path == "p")
          [(⟨"p", 1, 2, 3, 4, some "a", some "b", none, none, "r1"⟩ : Row)] = some stored →
      identityChanged stored 9 2 3 4 = true →
      roundTripRecord [⟨"p", 1, 2, 3, 4, some "a", some "b", none, none, "r1"⟩]
        "p" 9 2 3 4 none none none none = ⟨none, none, none, none⟩) :=
  cache_roundtrip_with_invalidation
    [⟨"p", 1, 2, 3, 4, some "a", some "b", none, none, "r1"⟩]
    "p" 9 2 3 4 "r2" none none none none

/-- **C2**.  With a well-formed table, `get` returns a record only if the
row stored for the queried path matches the queried `(size, mtime_ns,
dev, ino)` in all four fields, and a mismatch in any one of them yields
`none`. -/
theorem get_requires_exact_identity (c : Cache) (p : String) (s m d i : Int)
    (hwf : cacheWf c) :
    (∀ rec, SignatureCache.get c p s m d i = some rec →
      ∀ r ∈ c, r.path = p →
        r.size = s ∧ r.mtime_ns = m ∧ r.dev = d ∧ r.ino = i) ∧
    (∀ r ∈ c, r.path = p →
      ¬(r.size = s ∧ r.mtime_ns = m ∧ r.dev = d ∧ r.ino = i) →
      SignatureCache.get c p s m d i = none) := by
  constructor
  · intro rec hget r hr hpath
    unfold SignatureCache.get at hget
    cases hfind : c.find? (fun x =>
        x.path == p && x.size == s && x.mtime_ns == m && x.dev == d && x.ino == i) with
    | none => rw [hfind] at hget; exact absurd hget (by simp)
    | some w =>
      have hw := List.find?_some hfind
      have hmem := List.mem_of_find?_eq_some hfind
      simp only [Bool.and_eq_true, beq_iff_eq] at hw
      have hrw : r = w :=
        List.inj_on_of_nodup_map hwf hr hmem (by rw [hpath, hw.1.1.1.1])
      subst hrw
      exact ⟨hw.1.1.1.2, hw.1.1.2, hw.1.2, hw.2⟩
  · intro r hr hpath hmis
    unfold SignatureCache.get
    have hnone : c.find? (fun x =>
        x.path == p && x.size == s && x.mtime_ns == m && x.dev == d && x.ino == i) = none := by
      rw [List.find?_eq_none]
      intro x hx hpred
      simp only [Bool.and_eq_true, beq_iff_eq] at hpred
      have hxr : x = r :=
        List.inj_on_of_nodup_map hwf hx hr (by rw [hpred.1.1.1.1, hpath])
      exact hmis (hxr ▸ ⟨hpred.1.1.1.2, hpred.1.1.2, hpred.1.2, hpred.2⟩)
    rw [hnone]

/-- Witness for C2: a one-row table queried with a mismatching size
yields `none`. -/
theorem get_requires_exact_identity_witness :
    cacheWf [⟨"p", 1, 2, 3, 4, some "q", none, none, none, "r"⟩] ∧
    ((∀ rec, SignatureCache.get [⟨"p", 1, 2, 3, 4, some "q", none, none, none, "r"⟩]
        "p" 9 2 3 4 = some rec →
      ∀ r ∈ [(⟨"p", 1, 2, 3, 4, some "q", none, none, none, "r"⟩ : Row)], r.path = "p" →
        r.size = 9 ∧ r.mtime_ns = 2 ∧ r.dev = 3 ∧ r.ino = 4) ∧
    (∀ r ∈ [(⟨"p", 1, 2, 3, 4, some "q", none, none, none, "r"⟩ : Row)], r.path = "p" →
      ¬(r.size = 9 ∧ r.mtime_ns = 2 ∧ r.dev = 3 ∧ r.ino = 4) →
      SignatureCache.get [⟨"p", 1, 2, 3, 4, some "q", none, none, none, "r"⟩]
        "p" 9 2 3 4 = none)) :=
  ⟨by unfold cacheWf; decide,
    get_requires_exact_identity [⟨"p", 1, 2, 3, 4, some "q", none, none, none, "r"⟩]
      "p" 9 2 3 4 (by unfold cacheWf; decide)⟩

theorem mem_prune_stale (c : Cache) (run_id : String) (r : Row) :
    r ∈ SignatureCache.prune_stale c run_id ↔ r ∈ c ∧ r.last_seen_run = run_id := by
  simp [SignatureCache.prune_stale, List.mem_filter]

/-- **C8**.  A row survives `prune_stale(run_id)` exactly when its
`last_seen_run` equals `run_id`; surviving rows are kept verbatim. -/
theorem prune_stale_mem (c : Cache) (run_id : String) (r : Row) :
    r ∈ SignatureCache.prune_stale c run_id ↔ r ∈ c ∧ r.last_seen_run = run_id :=
  mem_prune_stale c run_id r

/-! ## Exact pipeline (`exact.py`)

File I/O is abstracted into oracles: `quick_hash` and `full_hash` give
the digest and bytes read for a path (or raise, modelled as
`Except.error`), `compare_files` gives the byte-by-byte comparison
outcome and bytes read, and `clean_dup` performs the move, returning
the destination or an `OSError`.  Log calls become `LogEvent` values. -/

structure ExactFileMeta where
  path : String
  size : Int
  mtime_ns : Int
  dev : Int
  ino : Int
  deriving DecidableEq, Repr

structure MoveRecord where
  source : String
  destination : String
  kept : String
  deriving DecidableEq, Repr

inductive LogEvent where
  | collisionWarning (path : String)
  | moveError (path : String)
  deriving DecidableEq, Repr

structure ExactPipelineResult where
  duplicates_moved : List MoveRecord
  moved_paths : List String
  bytes_read_exact : Nat
  bytes_read_verify : Nat
  cache_hits : Nat
  cache_misses : Nat
  deriving DecidableEq, Repr

/-- `_bounded_parallel_map`: the orchestrator consumes each future with
`fut.result()`, which re-raises any exception the task raised, so an
error on any item aborts the whole map; otherwise every item is paired
with its result.  (The model runs items in submission order; callers
consume the results order-insensitively.) -/
def bounded_parallel_map {α β : Type} (items : List α) (fn : α → Except String β) :
    Except String (List (α × β)) :=
  match items with
  | [] => .ok []
  | x :: xs =>
    match fn x with
    | .error e => .error e
    | .ok y =>
      match bounded_parallel_map xs fn with
      | .error e => .error e
      | .ok rest => .ok ((x, y) :: rest)

/-- Insertion-ordered grouping, modelling the `defaultdict(list)` maps of
`_build_size_groups` and the quick/full regrouping loops: keys appear in
first-encounter order and each group preserves input order. -/
def groupByKey {α κ : Type} [BEq κ] (key : α → κ) (xs : List α) : List (κ × List α) :=
  xs.foldl (fun acc x =>
    if acc.any (fun kv => kv.1 == key x) then
      acc.map (fun kv => if kv.1 == key x then (kv.1, kv.2 ++ [x]) else kv)
    else acc ++ [(key x, [x])]) []

/-- The `[meta for group in groups.values() if len(group) > 1 for meta in
group]` comprehensions: members of the non-singleton groups. -/
def multiGroupMembers {α κ : Type} [BEq κ] (key : α → κ) (xs : List α) : List α :=
  ((groupByKey key xs).filter (fun kv => 1 < kv.2.length)).flatMap Prod.snd

/-- Python `dict` insertion: replace in place or append. -/
def dictInsert {β : Type} (d : List (String × β)) (k : String) (v : β) :
    List (String × β) :=
  if d.any (fun kv => kv.1 == k) then
    d.map (fun kv => if kv.1 == k then (k, v) else kv)
  else d ++ [(k, v)]

structure ConsumeState where
  hashes : List (String × String)
  todo : List ExactFileMeta
  cache : Option Cache
  hits : Nat
  misses : Nat
  deriving Repr

/-- One iteration of the cache-consume loops of `run_exact_pipeline`
(quick stage lines 200–226, full stage lines 259–285): on a cache hit —
a record whose selected fingerprint (`field`) is present — record the
digest and immediately re-upsert the row under the current run id,
passing back every stored fingerprint; otherwise count a miss (when a
cache is configured) and defer the file to the compute list. -/
def consumeHashStage (field : CacheRecord → Option String) (run_id : String)
    (st : ConsumeState) (meta : ExactFileMeta) : ConsumeState :=
  match st.cache with
  | some c =>
    match SignatureCache.get c meta.path meta.size meta.mtime_ns meta.dev meta.ino with
    | some record =>
      match field record with
      | some digest =>
        { st with
            hits := st.hits + 1
            hashes := dictInsert st.hashes meta.path digest
            cache := some (SignatureCache.upsert c meta.path meta.size meta.mtime_ns
              meta.dev meta.ino run_id record.quick_hash record.full_hash
              record.media_sig record.media_meta) }
      | none => { st with misses := st.misses + 1, todo := st.todo ++ [meta] }
    | none => { st with misses := st.misses + 1, todo := st.todo ++ [meta] }
  | none => { st with todo := st.todo ++ [meta] }

structure ApplyState where
  hashes : List (String × String)
  cache : Option Cache
  bytes : Nat
  deriving Repr

/-- Consuming one quick-hash worker result (lines 231–247): record the
digest, add the bytes read, and upsert the quick hash under the run id. -/
def applyQuickOne (run_id : String) (st : ApplyState)
    (x : ExactFileMeta × (String × Nat)) : ApplyState :=
  { hashes := dictInsert st.hashes x.1.path x.2.1
    bytes := st.bytes + x.2.2
    cache := match st.cache with
      | some c => some (SignatureCache.upsert c x.1.path x.1.size x.1.mtime_ns
          x.1.dev x.1.ino run_id (some x.2.1) none none none)
      | none => none }

/-- Consuming one full-hash worker result (lines 290–306). -/
def applyFullOne (run_id : String) (st : ApplyState)
    (x : ExactFileMeta × (String × Nat)) : ApplyState :=
  { hashes := dictInsert st.hashes x.1.path x.2.1
    bytes := st.bytes + x.2.2
    cache := match st.cache with
      | some c => some (SignatureCache.upsert c x.1.path x.1.size x.1.mtime_ns
          x.1.dev x.1.ino run_id none (some x.2.1) none none)
      | none => none }

/-- The sort key of the byte-verification stage:
`key=lambda item: (item.mtime_ns, item.path)` under Python tuple and
string comparison. -/
def metaLe (a b : ExactFileMeta) : Bool :=
  a.mtime_ns < b.mtime_ns || (a.mtime_ns == b.mtime_ns && strLe a.path b.path)

structure GroupOutcome where
  moves : List MoveRecord
  moved_paths : List String
  bytes_verify : Nat
  events : List LogEvent
  deriving DecidableEq, Repr

/-- The body of the per-candidate loop (lines 317–337): byte-compare the
candidate against the canonical file; on mismatch log the collision
anomaly and skip; otherwise attempt the move, logging a failure or
recording the move. -/
def processCandidate (cmp : String → String → Bool × Nat)
    (moveFn : String → Except String String) (canonical : ExactFileMeta)
    (st : GroupOutcome) (candidate : ExactFileMeta) : GroupOutcome :=
  let r := cmp canonical.path candidate.path
  let st1 : GroupOutcome := { st with bytes_verify := st.bytes_verify + r.2 }
  if !r.1 then
    { st1 with events := st1.events ++ [.collisionWarning candidate.path] }
  else
    match moveFn candidate.path with
    | .error _ => { st1 with events := st1.events ++ [.moveError candidate.path] }
    | .ok dest =>
      { st1 with
          moved_paths := st1.moved_paths ++ [candidate.path]
          moves := st1.moves ++ [⟨candidate.path, dest, canonical.path⟩] }

/-- One full-hash group of the verification stage (lines 312–337):
singleton groups are skipped, otherwise the group is sorted by
`(mtime_ns, path)`, the head is the canonical file, and every other
member is processed as a move candidate. -/
def processGroup (cmp : String → String → Bool × Nat)
    (moveFn : String → Except String String) (group : List ExactFileMeta) :
    GroupOutcome :=
  if group.length ≤ 1 then ⟨[], [], 0, []⟩
  else
    match List.insertionSort (fun a b => metaLe a b = true) group with
    | [] => ⟨[], [], 0, []⟩
    | canonical :: rest =>
      rest.foldl (processCandidate cmp moveFn canonical) ⟨[], [], 0, []⟩

def emptyExactResult : ExactPipelineResult := ⟨[], [], 0, 0, 0, 0⟩

/-- `run_exact_pipeline` (lines 167–346), with hashing, comparison and
moving supplied as oracles.  Returns the result record, the final cache
state and the log events, or the uncaught exception propagated out of a
hashing worker. -/
def run_exact_pipeline (files : List ExactFileMeta)
    (quick_hash : String → Int → Except String (String × Nat))
    (full_hash : String → Except String (String × Nat))
    (compare_files : String → String → Bool × Nat)
    (clean_dup : String → Except String String)
    (cache0 : Option Cache) (run_id : String) :
    Except String (ExactPipelineResult × Option Cache × List LogEvent) :=
  let candidate_files := multiGroupMembers (fun m => m.size) files
  if candidate_files.isEmpty then .ok (emptyExactResult, cache0, [])
  else
    let s1 := candidate_files.foldl
      (consumeHashStage CacheRecord.quick_hash run_id) ⟨[], [], cache0, 0, 0⟩
    match bounded_parallel_map s1.todo (fun m => quick_hash m.path m.size) with
    | .error e => .error e
    | .ok quickResults =>
      let s2 := quickResults.foldl (applyQuickOne run_id) ⟨s1.hashes, s1.cache, 0⟩
      let full_candidates := multiGroupMembers
        (fun m => (m.size, (s2.hashes.lookup m.path).getD "")) candidate_files
      let s3 := full_candidates.foldl
        (consumeHashStage CacheRecord.full_hash run_id) ⟨[], [], s2.cache, s1.hits, s1.misses⟩
      match bounded_parallel_map s3.todo (fun m => full_hash m.path) with
      | .error e => .error e
      | .ok fullResults =>
        let s4 := fullResults.foldl (applyFullOne run_id) ⟨s3.hashes, s3.cache, s2.bytes⟩
        let full_groups := groupByKey
          (fun m => (m.size, (s4.hashes.lookup m.path).getD "")) full_candidates
        let outcome := (full_groups.map Prod.snd).foldl
          (fun acc g =>
            let o := processGroup compare_files clean_dup g
            ⟨acc.moves ++ o.moves, acc.moved_paths ++ o.moved_paths,
              acc.bytes_verify + o.bytes_verify, acc.events ++ o.events⟩)
          (⟨[], [], 0, []⟩ : GroupOutcome)
        .ok (⟨outcome.moves, outcome.moved_paths, s4.bytes, outcome.bytes_verify,
          s3.hits, s3.misses⟩, s4.cache, outcome.events)

/-! ### Order facts for the verification-stage sort -/

theorem lexLe_refl : ∀ (xs : List Nat), lexLe xs xs = true
  | [] => rfl
  | x :: xs => by
    simp only [lexLe, Bool.or_eq_true, Bool.and_eq_true, beq_iff_eq, decide_eq_true_eq]
    exact Or.inr ⟨trivial, lexLe_refl xs⟩

theorem lexLe_trans : ∀ (xs ys zs : List Nat),
    lexLe xs ys = true → lexLe ys zs = true → lexLe xs zs = true
  | [], _, _, _, _ => rfl
  | _ :: _, [], _, h, _ => absurd h (by simp [lexLe])
  | _ :: _, _ :: _, [], _, h => absurd h (by simp [lexLe])
  | x :: xs, y :: ys, z :: zs, h1, h2 => by
    simp only [lexLe, Bool.or_eq_true, Bool.and_eq_true, beq_iff_eq,
      decide_eq_true_eq] at h1 h2 ⊢
    rcases h1 with h1 | ⟨e1, h1⟩
    · rcases h2 with h2 | ⟨e2, _⟩
      · exact Or.inl (h1.trans h2)
      · exact Or.inl (e2 ▸ h1)
    · rcases h2 with h2 | ⟨e2, h2⟩
      · exact Or.inl (e1 ▸ h2)
      · exact Or.inr ⟨e1.trans e2, lexLe_trans xs ys zs h1 h2⟩

theorem lexLe_total : ∀ (xs ys : List Nat), lexLe xs ys = true ∨ lexLe ys xs = true
  | [], _ => Or.inl rfl
  | _ :: _, [] => Or.inr rfl
  | x :: xs, y :: ys => by
    simp only [lexLe, Bool.or_eq_true, Bool.and_eq_true, beq_iff_eq, decide_eq_true_eq]
    rcases Nat.lt_trichotomy x y with h | h | h
    · exact Or.inl (Or.inl h)
    · rcases lexLe_total xs ys with ht | ht
      · exact Or.inl (Or.inr ⟨h, ht⟩)
      · exact Or.inr (Or.inr ⟨h.symm, ht⟩)
    · exact Or.inr (Or.inl h)

theorem strLe_refl (a : String) : strLe a a = true := lexLe_refl _

theorem strLe_trans {a b c : String} (h1 : strLe a b = true) (h2 : strLe b c = true) :
    strLe a c = true := lexLe_trans _ _ _ h1 h2

theorem strLe_total (a b : String) : strLe a b = true ∨ strLe b a = true :=
  lexLe_total _ _

theorem metaLe_trans {a b c : ExactFileMeta} (h1 : metaLe a b = true)
    (h2 : metaLe b c = true) : metaLe a c = true := by
  simp only [metaLe, Bool.or_eq_true, Bool.and_eq_true, beq_iff_eq,
    decide_eq_true_eq] at h1 h2 ⊢
  rcases h1 with h1 | ⟨e1, h1⟩
  · rcases h2 with h2 | ⟨e2, _⟩
    · exact Or.inl (h1.trans h2)
    · exact Or.inl (e2 ▸ h1)
  · rcases h2 with h2 | ⟨e2, h2⟩
    · exact Or.inl (e1 ▸ h2)
    · exact Or.inr ⟨e1.trans e2, strLe_trans h1 h2⟩

theorem metaLe_total (a b : ExactFileMeta) : metaLe a b = true ∨ metaLe b a = true := by
  simp only [metaLe, Bool.or_eq_true, Bool.and_eq_true, beq_iff_eq, decide_eq_true_eq]
  rcases lt_trichotomy a.mtime_ns b.mtime_ns with h | h | h
  · exact Or.inl (Or.inl h)
  · rcases strLe_total a.path b.path with ht | ht
    · exact Or.inl (Or.inr ⟨h, ht⟩)
    · exact Or.inr (Or.inr ⟨h.symm, ht⟩)
  · exact Or.inr (Or.inl h)

instance : IsTrans ExactFileMeta (fun a b => metaLe a b = true) :=
  ⟨fun _ _ _ => metaLe_trans⟩

instance : IsTotal ExactFileMeta (fun a b => metaLe a b = true) :=
  ⟨metaLe_total⟩

theorem metaLe_refl (a : ExactFileMeta) : metaLe a a = true := by
  simp [metaLe, strLe_refl]

/-- The move record one candidate contributes to its group's outcome,
if any. -/
def candidateMove (cmp : String → String → Bool × Nat)
    (moveFn : String → Except String String) (canonical candidate : ExactFileMeta) :
    Option MoveRecord :=
  if (cmp canonical.path candidate.path).1 then
    match moveFn candidate.path with
    | .ok dest => some ⟨candidate.path, dest, canonical.path⟩
    | .error _ => none
  else none

/-- The log events one candidate contributes to its group's outcome. -/
def candidateEvents (cmp : String → String → Bool × Nat)
    (moveFn : String → Except String String) (canonical candidate : ExactFileMeta) :
    List LogEvent :=
  if (cmp canonical.path candidate.path).1 then
    match moveFn candidate.path with
    | .ok _ => []
    | .error _ => [.moveError candidate.path]
  else [.collisionWarning candidate.path]

theorem foldl_processCandidate (cmp : String → String → Bool × Nat)
    (moveFn : String → Except String String) (canonical : ExactFileMeta)
    (rest : List ExactFileMeta) (st : GroupOutcome) :
    rest.foldl (processCandidate cmp moveFn canonical) st =
      ⟨st.moves ++ rest.filterMap (candidateMove cmp moveFn canonical),
        st.moved_paths ++
          (rest.filterMap (candidateMove cmp moveFn canonical)).map MoveRecord.source,
        st.bytes_verify + (rest.map (fun c => (cmp canonical.path c.path).2)).sum,
        st.events ++ rest.flatMap (candidateEvents cmp moveFn canonical)⟩ := by
  induction rest generalizing st with
  | nil => simp
  | cons c cs ih =>
    rw [List.foldl_cons, ih]
    unfold processCandidate candidateMove candidateEvents
    cases hc : (cmp canonical.path c.path).1
    · simp [hc, List.append_assoc, Nat.add_assoc]
    · cases hm : moveFn c.path
      · simp [hc, hm, List.append_assoc, Nat.add_assoc]
      · simp [hc, hm, List.append_assoc, Nat.add_assoc]

theorem processGroup_eq (cmp : String → String → Bool × Nat)
    (moveFn : String → Except String String) (group : List ExactFileMeta)
    (canonical : ExactFileMeta) (rest : List ExactFileMeta)
    (h2 : 2 ≤ group.length)
    (hsort : List.insertionSort (fun a b => metaLe a b = true) group =
      canonical :: rest) :
    processGroup cmp moveFn group =
      ⟨rest.filterMap (candidateMove cmp moveFn canonical),
        (rest.filterMap (candidateMove cmp moveFn canonical)).map MoveRecord.source,
        (rest.map (fun c => (cmp canonical.path c.path).2)).sum,
        rest.flatMap (candidateEvents cmp moveFn canonical)⟩ := by
  unfold processGroup
  rw [if_neg (by omega), hsort]
  show List.foldl (processCandidate cmp moveFn canonical) ⟨[], [], 0, []⟩ rest = _
  rw [foldl_processCandidate]
  simp

theorem sort_cons_perm (group : List ExactFileMeta) (canonical : ExactFileMeta)
    (rest : List ExactFileMeta)
    (hsort : List.insertionSort (fun a b => metaLe a b = true) group =
      canonical :: rest) :
    (canonical :: rest).Perm group := by
  rw [← hsort]
  exact List.perm_insertionSort _ _

theorem candidateMove_some {cmp : String → String → Bool × Nat}
    {moveFn : String → Except String String} {canonical cand : ExactFileMeta}
    {mv : MoveRecord}
    (h : candidateMove cmp moveFn canonical cand = some mv) :
    mv.source = cand.path ∧ mv.kept = canonical.path ∧
      (cmp canonical.path cand.path).1 = true := by
  unfold candidateMove at h
  cases hc : (cmp canonical.path cand.path).1
  · rw [hc] at h
    simp at h
  · rw [hc] at h
    cases hm : moveFn cand.path
    · rw [hm] at h
      simp at h
    · rw [hm] at h
      simp only [if_true, Option.some.injEq, reduceIte] at h
      exact ⟨by rw [← h], by rw [← h], rfl⟩

/-- **C3**.  In the byte-verification stage, the canonical file of every
full-hash group with at least two members is the member with minimum
`(mtime_ns ascending, path ascending)`; it is never moved, and every
move record keeps the canonical path while its source is one of the
non-canonical members. -/
theorem exact_canonical_minimal
    (cmp : String → String → Bool × Nat) (moveFn : String → Except String String)
    (group : List ExactFileMeta) (canonical : ExactFileMeta)
    (rest : List ExactFileMeta)
    (h2 : 2 ≤ group.length)
    (hnd : (group.map ExactFileMeta.path).Nodup)
    (hsort : List.insertionSort (fun a b => metaLe a b = true) group =
      canonical :: rest) :
    (∀ x ∈ group, canonical.mtime_ns < x.mtime_ns ∨
      (canonical.mtime_ns = x.mtime_ns ∧ strLe canonical.path x.path = true)) ∧
    canonical.path ∉ (processGroup cmp moveFn group).moved_paths ∧
    (∀ mv ∈ (processGroup cmp moveFn group).moves,
      mv.kept = canonical.path ∧ mv.source ∈ rest.map ExactFileMeta.path ∧
        mv.source ≠ canonical.path) := by
  have hperm := sort_cons_perm group canonical rest hsort
  have hsorted : List.Sorted (fun a b => metaLe a b = true) (canonical :: rest) := by
    rw [← hsort]
    exact List.sorted_insertionSort _ _
  have hmin : ∀ x ∈ group, metaLe canonical x = true := by
    intro x hx
    have hx' : x ∈ canonical :: rest := hperm.mem_iff.mpr hx
    rcases List.mem_cons.mp hx' with rfl | hxr
    · exact metaLe_refl x
    · exact List.rel_of_sorted_cons hsorted x hxr
  have hnd' : ((canonical :: rest).map ExactFileMeta.path).Nodup :=
    ((hperm.map ExactFileMeta.path).symm).nodup hnd
  have hcnot : canonical.path ∉ rest.map ExactFileMeta.path := by
    simp only [List.map_cons, List.nodup_cons] at hnd'
    exact hnd'.1
  rw [processGroup_eq cmp moveFn group canonical rest h2 hsort]
  refine ⟨?_, ?_, ?_⟩
  · intro x hx
    have hm := hmin x hx
    simpa only [metaLe, Bool.or_eq_true, Bool.and_eq_true, beq_iff_eq,
      decide_eq_true_eq] using hm
  · intro hmem
    simp only [List.mem_map, List.mem_filterMap] at hmem
    obtain ⟨mv, ⟨cand, hcand, hcm⟩, hsrc⟩ := hmem
    have hs := (candidateMove_some hcm).1
    exact hcnot (by rw [← hsrc, hs]; exact List.mem_map_of_mem _ hcand)
  · intro mv hmv
    simp only [List.mem_filterMap] at hmv
    obtain ⟨cand, hcand, hcm⟩ := hmv
    obtain ⟨hs, hk, _⟩ := candidateMove_some hcm
    refine ⟨hk, by rw [hs]; exact List.mem_map_of_mem _ hcand, ?_⟩
    intro hbad
    exact hcnot (by rw [← hbad, hs]; exact List.mem_map_of_mem _ hcand)

/-- Witness for C3: a two-member group where the younger-mtime file is
canonical. -/
theorem exact_canonical_minimal_witness :
    2 ≤ ([⟨"/b", 4, 20, 1, 1⟩, ⟨"/a", 4, 10, 1, 2⟩] : List ExactFileMeta).length ∧
    (([⟨"/b", 4, 20, 1, 1⟩, ⟨"/a", 4, 10, 1, 2⟩] : List ExactFileMeta).map
      ExactFileMeta.path).Nodup ∧
    ((∀ x ∈ ([⟨"/b", 4, 20, 1, 1⟩, ⟨"/a", 4, 10, 1, 2⟩] : List ExactFileMeta),
        (10 : Int) < x.mtime_ns ∨ ((10 : Int) = x.mtime_ns ∧ strLe "/a" x.path = true)) ∧
      "/a" ∉ (processGroup (fun _ _ => (true, 0)) (fun p => .ok p)
        [⟨"/b", 4, 20, 1, 1⟩, ⟨"/a", 4, 10, 1, 2⟩]).moved_paths ∧
      (∀ mv ∈ (processGroup (fun _ _ => (true, 0)) (fun p => .ok p)
          [⟨"/b", 4, 20, 1, 1⟩, ⟨"/a", 4, 10, 1, 2⟩]).moves,
        mv.kept = "/a" ∧ mv.source ∈ [(⟨"/b", 4, 20, 1, 1⟩ : ExactFileMeta)].map
          ExactFileMeta.path ∧ mv.source ≠ "/a")) :=
  ⟨by decide, by decide,
    exact_canonical_minimal (fun _ _ => (true, 0)) (fun p => .ok p)
      [⟨"/b", 4, 20, 1, 1⟩, ⟨"/a", 4, 10, 1, 2⟩] ⟨"/a", 4, 10, 1, 2⟩
      [⟨"/b", 4, 20, 1, 1⟩] (by decide) (by decide) (by decide)⟩

/-- **C4**.  A candidate whose byte-by-byte comparison with the canonical
file mismatches is logged as a collision anomaly and skipped: it appears
in neither `moved_paths` nor `duplicates_moved`, and the canonical file
is not moved either. -/
theorem collision_candidate_skipped
    (cmp : String → String → Bool × Nat) (moveFn : String → Except String String)
    (group : List ExactFileMeta) (canonical candidate : ExactFileMeta)
    (rest : List ExactFileMeta)
    (h2 : 2 ≤ group.length)
    (hnd : (group.map ExactFileMeta.path).Nodup)
    (hsort : List.insertionSort (fun a b => metaLe a b = true) group =
      canonical :: rest)
    (hc : candidate ∈ rest)
    (hbad : (cmp canonical.path candidate.path).1 = false) :
    LogEvent.collisionWarning candidate.path ∈ (processGroup cmp moveFn group).events ∧
    candidate.path ∉ (processGroup cmp moveFn group).moved_paths ∧
    (∀ mv ∈ (processGroup cmp moveFn group).moves, mv.source ≠ candidate.path) ∧
    canonical.path ∉ (processGroup cmp moveFn group).moved_paths := by
  have hperm := sort_cons_perm group canonical rest hsort
  have hnd' : ((canonical :: rest).map ExactFileMeta.path).Nodup :=
    ((hperm.map ExactFileMeta.path).symm).nodup hnd
  have hrestnd : (rest.map ExactFileMeta.path).Nodup := by
    simp only [List.map_cons, List.nodup_cons] at hnd'
    exact hnd'.2
  have hcnot : canonical.path ∉ rest.map ExactFileMeta.path := by
    simp only [List.map_cons, List.nodup_cons] at hnd'
    exact hnd'.1
  have hsource : ∀ mv ∈ (rest.filterMap (candidateMove cmp moveFn canonical)),
      mv.source ≠ candidate.path := by
    intro mv hmv hsrc
    simp only [List.mem_filterMap] at hmv
    obtain ⟨cand, hcand, hcm⟩ := hmv
    obtain ⟨hs, _, hcmp⟩ := candidateMove_some hcm
    have : cand = candidate :=
      List.inj_on_of_nodup_map hrestnd hcand hc (by rw [← hs, hsrc])
    rw [this] at hcmp
    rw [hbad] at hcmp
    exact Bool.false_ne_true hcmp
  rw [processGroup_eq cmp moveFn group canonical rest h2 hsort]
  refine ⟨?_, ?_, ?_, ?_⟩
  · simp only [List.mem_flatMap]
    exact ⟨candidate, hc, by simp [candidateEvents, hbad]⟩
  · intro hmem
    simp only [List.mem_map] at hmem
    obtain ⟨mv, hmv, hsrc⟩ := hmem
    exact hsource mv hmv hsrc
  · exact fun mv hmv => hsource mv hmv
  · intro hmem
    simp only [List.mem_map, List.mem_filterMap] at hmem
    obtain ⟨mv, ⟨cand, hcand, hcm⟩, hsrc⟩ := hmem
    have hs := (candidateMove_some hcm).1
    exact hcnot (by rw [← hsrc, hs]; exact List.mem_map_of_mem _ hcand)

/-- Witness for C4: a two-member group whose comparison oracle reports a
byte mismatch. -/
theorem collision_candidate_skipped_witness :
    2 ≤ ([⟨"/a", 4, 10, 1, 1⟩, ⟨"/b", 4, 20, 1, 2⟩] : List ExactFileMeta).length ∧
    (LogEvent.collisionWarning "/b" ∈ (processGroup (fun _ _ => (false, 8))
        (fun p => .ok p) [⟨"/a", 4, 10, 1, 1⟩, ⟨"/b", 4, 20, 1, 2⟩]).events ∧
      "/b" ∉ (processGroup (fun _ _ => (false, 8)) (fun p => .ok p)
        [⟨"/a", 4, 10, 1, 1⟩, ⟨"/b", 4, 20, 1, 2⟩]).moved_paths ∧
      (∀ mv ∈ (processGroup (fun _ _ => (false, 8)) (fun p => .ok p)
          [⟨"/a", 4, 10, 1, 1⟩, ⟨"/b", 4, 20, 1, 2⟩]).moves, mv.source ≠ "/b") ∧
      "/a" ∉ (processGroup (fun _ _ => (false, 8)) (fun p => .ok p)
        [⟨"/a", 4, 10, 1, 1⟩, ⟨"/b", 4, 20, 1, 2⟩]).moved_paths) :=
  ⟨by decide,
    collision_candidate_skipped (fun _ _ => (false, 8)) (fun p => .ok p)
      [⟨"/a", 4, 10, 1, 1⟩, ⟨"/b", 4, 20, 1, 2⟩] ⟨"/a", 4, 10, 1, 1⟩
      ⟨"/b", 4, 20, 1, 2⟩ [⟨"/b", 4, 20, 1, 2⟩] (by decide) (by decide)
      (by decide) (by decide) (by decide)⟩

/-- **C5** (code evaluated at the failing input).  Two same-size files
enter the candidate set; the quick-hash worker raises `OSError` for the
first.  `run_exact_pipeline` consumes worker futures with
`fut.result()` and has no handler, so the exception propagates and no
result object is produced — the file is not dropped and the run does
not continue. -/
theorem exact_pipeline_io_error_aborts :
    run_exact_pipeline [⟨"/a", 4, 10, 1, 1⟩, ⟨"/b", 4, 20, 1, 2⟩]
      (fun p _ => if p == "/a" then .error "OSError" else .ok ("h", 4))
      (fun _ => .ok ("f", 4)) (fun _ _ => (true, 0)) (fun p => .ok p)
      none "run" = .error "OSError" := rfl

/-! ### Run-id stamping (claim C10) -/

/-- The cache holds a row for `p` stamped with `run_id`. -/
def stamped (c : Cache) (run_id p : String) : Prop :=
  ∃ r ∈ c, r.path = p ∧ r.last_seen_run = run_id

/-- `stamped` lifted to the optional cache handle the pipelines thread. -/
def stampedOpt (oc : Option Cache) (run_id p : String) : Prop :=
  ∃ c, oc = some c ∧ stamped c run_id p

theorem stamped_upsert_self (c : Cache) (p : String) (s m d i : Int) (run : String)
    (q f g h : Option String) :
    stamped (SignatureCache.upsert c p s m d i run q f g h) run p := by
  unfold SignatureCache.upsert
  cases ha : c.any (fun r => r.path == p)
  · rw [if_neg (by simp [ha])]
    exact ⟨_, List.mem_append_right _ (List.mem_singleton_self _), rfl, rfl⟩
  · rw [if_pos (by simp [ha])]
    obtain ⟨r, hr, hrp⟩ := List.any_eq_true.mp ha
    refine ⟨mergeRow r s m d i run q f g h, ?_, ?_, rfl⟩
    · have := List.mem_map_of_mem (fun x =>
        if x.path == p then mergeRow x s m d i run q f g h else x) hr
      simpa [hrp] using this
    · simpa [mergeRow] using beq_iff_eq.mp hrp

theorem stamped_upsert_mono (c : Cache) (p' : String) (s m d i : Int) (run : String)
    (q f g h : Option String) {p : String} (hs : stamped c run p) :
    stamped (SignatureCache.upsert c p' s m d i run q f g h) run p := by
  obtain ⟨r, hr, hrp, hrl⟩ := hs
  unfold SignatureCache.upsert
  cases ha : c.any (fun x => x.path == p')
  · rw [if_neg (by simp [ha])]
    exact ⟨r, List.mem_append_left _ hr, hrp, hrl⟩
  · rw [if_pos (by simp [ha])]
    refine ⟨if r.path == p' then mergeRow r s m d i run q f g h else r,
      List.mem_map_of_mem _ hr, ?_, ?_⟩
    · cases hb : (r.path == p') <;> simp [hb, mergeRow, hrp]
    · cases hb : (r.path == p') <;> simp [hb, mergeRow, hrl]

theorem stampedOpt_prune (oc : Option Cache) (run p : String)
    (h : stampedOpt oc run p) :
    ∃ c, oc = some c ∧ ∃ r ∈ SignatureCache.prune_stale c run, r.path = p := by
  obtain ⟨c, hc, r, hr, hrp, hrl⟩ := h
  exact ⟨c, hc, r, (mem_prune_stale c run r).mpr ⟨hr, hrl⟩, hrp⟩

theorem consumeHashStage_todo (field : CacheRecord → Option String) (run_id : String)
    (st : ConsumeState) (meta : ExactFileMeta) (x : ExactFileMeta) (hx : x ∈ st.todo) :
    x ∈ (consumeHashStage field run_id st meta).todo := by
  unfold consumeHashStage
  cases hsc : st.cache with
  | none => exact List.mem_append_left _ hx
  | some c =>
    dsimp only
    cases hget : SignatureCache.get c meta.path meta.size meta.mtime_ns meta.dev meta.ino with
    | none => exact List.mem_append_left _ hx
    | some record =>
      dsimp only
      cases hf : field record with
      | none => exact List.mem_append_left _ hx
      | some digest => exact hx

theorem consumeHashStage_stamp_mono (field : CacheRecord → Option String)
    (run_id : String) (st : ConsumeState) (meta : ExactFileMeta) {p : String}
    (hs : stampedOpt st.cache run_id p) :
    stampedOpt (consumeHashStage field run_id st meta).cache run_id p := by
  obtain ⟨c, hc, hst⟩ := hs
  unfold consumeHashStage
  rw [hc]
  dsimp only
  cases hget : SignatureCache.get c meta.path meta.size meta.mtime_ns meta.dev meta.ino with
  | none => exact ⟨c, rfl, hst⟩
  | some record =>
    dsimp only
    cases hf : field record with
    | none => exact ⟨c, rfl, hst⟩
    | some digest =>
      exact ⟨_, rfl, stamped_upsert_mono c meta.path meta.size meta.mtime_ns
        meta.dev meta.ino run_id record.quick_hash record.full_hash
        record.media_sig record.media_meta hst⟩

theorem consumeHashStage_processed (field : CacheRecord → Option String)
    (run_id : String) (st : ConsumeState) (meta : ExactFileMeta) :
    stampedOpt (consumeHashStage field run_id st meta).cache run_id meta.path ∨
      meta ∈ (consumeHashStage field run_id st meta).todo := by
  unfold consumeHashStage
  cases hsc : st.cache with
  | none => exact Or.inr (List.mem_append_right _ (List.mem_singleton_self _))
  | some c =>
    dsimp only
    cases hget : SignatureCache.get c meta.path meta.size meta.mtime_ns meta.dev meta.ino with
    | none => exact Or.inr (List.mem_append_right _ (List.mem_singleton_self _))
    | some record =>
      dsimp only
      cases hf : field record with
      | none => exact Or.inr (List.mem_append_right _ (List.mem_singleton_self _))
      | some digest =>
        exact Or.inl ⟨_, rfl, stamped_upsert_self c meta.path meta.size meta.mtime_ns
          meta.dev meta.ino run_id record.quick_hash record.full_hash
          record.media_sig record.media_meta⟩

theorem consumeHashStage_some (field : CacheRecord → Option String)
    (run_id : String) (st : ConsumeState) (meta : ExactFileMeta) (c : Cache)
    (hc : st.cache = some c) :
    ∃ c', (consumeHashStage field run_id st meta).cache = some c' := by
  unfold consumeHashStage
  rw [hc]
  dsimp only
  cases hget : SignatureCache.get c meta.path meta.size meta.mtime_ns meta.dev meta.ino with
  | none => exact ⟨c, rfl⟩
  | some record =>
    dsimp only
    cases hf : field record with
    | none => exact ⟨c, rfl⟩
    | some digest => exact ⟨_, rfl⟩

theorem consumeFold_todo (field : CacheRecord → Option String) (run_id : String) :
    ∀ (cands : List ExactFileMeta) (st : ConsumeState) (x : ExactFileMeta),
      x ∈ st.todo → x ∈ (cands.foldl (consumeHashStage field run_id) st).todo
  | [], _, _, hx => hx
  | meta :: cs, st, x, hx => by
    rw [List.foldl_cons]
    exact consumeFold_todo field run_id cs _ x
      (consumeHashStage_todo field run_id st meta x hx)

theorem consumeFold_stamp_mono (field : CacheRecord → Option String) (run_id : String) :
    ∀ (cands : List ExactFileMeta) (st : ConsumeState) {p : String},
      stampedOpt st.cache run_id p →
      stampedOpt (cands.foldl (consumeHashStage field run_id) st).cache run_id p
  | [], _, _, hs => hs
  | meta :: cs, st, p, hs => by
    rw [List.foldl_cons]
    exact consumeFold_stamp_mono field run_id cs _
      (consumeHashStage_stamp_mono field run_id st meta hs)

theorem consumeFold_some (field : CacheRecord → Option String) (run_id : String) :
    ∀ (cands : List ExactFileMeta) (st : ConsumeState) (c : Cache),
      st.cache = some c →
      ∃ c', (cands.foldl (consumeHashStage field run_id) st).cache = some c'
  | [], st, c, hc => ⟨c, hc⟩
  | meta :: cs, st, c, hc => by
    rw [List.foldl_cons]
    obtain ⟨c1, hc1⟩ := consumeHashStage_some field run_id st meta c hc
    exact consumeFold_some field run_id cs _ c1 hc1

theorem consumeFold_processed (field : CacheRecord → Option String) (run_id : String) :
    ∀ (cands : List ExactFileMeta) (st : ConsumeState) (meta : ExactFileMeta),
      meta ∈ cands →
      stampedOpt (cands.foldl (consumeHashStage field run_id) st).cache run_id meta.path ∨
        meta ∈ (cands.foldl (consumeHashStage field run_id) st).todo
  | [], _, _, hmem => absurd hmem (List.not_mem_nil _)
  | m0 :: cs, st, meta, hmem => by
    rw [List.foldl_cons]
    rcases List.mem_cons.mp hmem with rfl | htl
    · rcases consumeHashStage_processed field run_id st meta with hs | ht
      · exact Or.inl (consumeFold_stamp_mono field run_id cs _ hs)
      · exact Or.inr (consumeFold_todo field run_id cs _ meta ht)
    · exact consumeFold_processed field run_id cs _ meta htl

theorem bounded_parallel_map_fst {α β : Type} :
    ∀ (items : List α) (fn : α → Except String β) (rs : List (α × β)),
      bounded_parallel_map items fn = .ok rs → rs.map Prod.fst = items
  | [], _, rs, h => by
    unfold bounded_parallel_map at h
    cases h
    rfl
  | x :: xs, fn, rs, h => by
    unfold bounded_parallel_map at h
    cases hfx : fn x with
    | error e => rw [hfx] at h; cases h
    | ok y =>
      rw [hfx] at h
      dsimp only at h
      cases hrec : bounded_parallel_map xs fn with
      | error e => rw [hrec] at h; cases h
      | ok rest =>
        rw [hrec] at h
        dsimp only at h
        cases h
        simp [bounded_parallel_map_fst xs fn rest hrec]

theorem applyQuickOne_stamp_mono (run_id : String) (st : ApplyState)
    (x : ExactFileMeta × (String × Nat)) {p : String}
    (hs : stampedOpt st.cache run_id p) :
    stampedOpt (applyQuickOne run_id st x).cache run_id p := by
  obtain ⟨c, hc, hst⟩ := hs
  unfold applyQuickOne
  rw [hc]
  exact ⟨_, rfl, stamped_upsert_mono c x.1.path x.1.size x.1.mtime_ns x.1.dev
    x.1.ino run_id (some x.2.1) none none none hst⟩

theorem applyQuickOne_processed (run_id : String) (st : ApplyState)
    (x : ExactFileMeta × (String × Nat)) (c : Cache) (hc : st.cache = some c) :
    stampedOpt (applyQuickOne run_id st x).cache run_id x.1.path := by
  unfold applyQuickOne
  rw [hc]
  exact ⟨_, rfl, stamped_upsert_self c x.1.path x.1.size x.1.mtime_ns x.1.dev
    x.1.ino run_id (some x.2.1) none none none⟩

theorem applyQuickOne_some (run_id : String) (st : ApplyState)
    (x : ExactFileMeta × (String × Nat)) (c : Cache) (hc : st.cache = some c) :
    ∃ c', (applyQuickOne run_id st x).cache = some c' := by
  unfold applyQuickOne
  rw [hc]
  exact ⟨_, rfl⟩

theorem applyQuickFold_stamp_mono (run_id : String) :
    ∀ (rs : List (ExactFileMeta × (String × Nat))) (st : ApplyState) {p : String},
      stampedOpt st.cache run_id p →
      stampedOpt (rs.foldl (applyQuickOne run_id) st).cache run_id p
  | [], _, _, hs => hs
  | x :: xs, st, p, hs => by
    rw [List.foldl_cons]
    exact applyQuickFold_stamp_mono run_id xs _ (applyQuickOne_stamp_mono run_id st x hs)

theorem applyQuickFold_some (run_id : String) :
    ∀ (rs : List (ExactFileMeta × (String × Nat))) (st : ApplyState) (c : Cache),
      st.cache = some c →
      ∃ c', (rs.foldl (applyQuickOne run_id) st).cache = some c'
  | [], _, c, hc => ⟨c, hc⟩
  | x :: xs, st, c, hc => by
    rw [List.foldl_cons]
    obtain ⟨c1, hc1⟩ := applyQuickOne_some run_id st x c hc
    exact applyQuickFold_some run_id xs _ c1 hc1

theorem applyQuickFold_processed (run_id : String) :
    ∀ (rs : List (ExactFileMeta × (String × Nat))) (st : ApplyState) (c : Cache),
      st.cache = some c →
      ∀ x ∈ rs, stampedOpt (rs.foldl (applyQuickOne run_id) st).cache run_id x.1.path
  | [], _, _, _, x, hx => absurd hx (List.not_mem_nil _)
  | x0 :: xs, st, c, hc, x, hx => by
    rw [List.foldl_cons]
    rcases List.mem_cons.mp hx with rfl | htl
    · exact applyQuickFold_stamp_mono run_id xs _
        (applyQuickOne_processed run_id st x c hc)
    · obtain ⟨c1, hc1⟩ := applyQuickOne_some run_id st x0 c hc
      exact applyQuickFold_processed run_id xs _ c1 hc1 x htl

theorem applyFullOne_stamp_mono (run_id : String) (st : ApplyState)
    (x : ExactFileMeta × (String × Nat)) {p : String}
    (hs : stampedOpt st.cache run_id p) :
    stampedOpt (applyFullOne run_id st x).cache run_id p := by
  obtain ⟨c, hc, hst⟩ := hs
  unfold applyFullOne
  rw [hc]
  exact ⟨_, rfl, stamped_upsert_mono c x.1.path x.1.size x.1.mtime_ns x.1.dev
    x.1.ino run_id none (some x.2.1) none none hst⟩

theorem applyFullFold_stamp_mono (run_id : String) :
    ∀ (rs : List (ExactFileMeta × (String × Nat))) (st : ApplyState) {p : String},
      stampedOpt st.cache run_id p →
      stampedOpt (rs.foldl (applyFullOne run_id) st).cache run_id p
  | [], _, _, hs => hs
  | x :: xs, st, p, hs => by
    rw [List.foldl_cons]
    exact applyFullFold_stamp_mono run_id xs _ (applyFullOne_stamp_mono run_id st x hs)

/-- Every file of the exact pipeline's candidate set (the members of the
non-singleton size groups) ends the pipeline with its cache row stamped
with the current run id, provided a cache is configured and the run
completed. -/
theorem run_exact_stamps (files : List ExactFileMeta)
    (qh : String → Int → Except String (String × Nat))
    (fh : String → Except String (String × Nat))
    (cmp : String → String → Bool × Nat) (mv : String → Except String String)
    (c0 : Cache) (run : String) (res : ExactPipelineResult) (oc : Option Cache)
    (ev : List LogEvent)
    (hrun : run_exact_pipeline files qh fh cmp mv (some c0) run = .ok (res, oc, ev)) :
    ∀ meta ∈ multiGroupMembers (fun m => m.size) files, stampedOpt oc run meta.path := by
  intro meta hmeta
  unfold run_exact_pipeline at hrun
  cases he : (multiGroupMembers (fun m => m.size) files).isEmpty
  case true =>
    rw [List.isEmpty_iff] at he
    rw [he] at hmeta
    exact absurd hmeta (List.not_mem_nil meta)
  case false =>
    rw [if_neg (by simp [he])] at hrun
    simp only [] at hrun
    split at hrun
    next e hq => exact Except.noConfusion hrun
    next quickResults hq =>
      split at hrun
      next e hf => exact Except.noConfusion hrun
      next fullResults hf =>
        rw [Except.ok.injEq, Prod.mk.injEq, Prod.mk.injEq] at hrun
        obtain ⟨-, hoc, -⟩ := hrun
        rw [← hoc]
        apply applyFullFold_stamp_mono
        apply consumeFold_stamp_mono
        dsimp only
        rcases consumeFold_processed CacheRecord.quick_hash run
            (multiGroupMembers (fun m => m.size) files) ⟨[], [], some c0, 0, 0⟩
            meta hmeta with hs | ht
        · exact applyQuickFold_stamp_mono run quickResults _ hs
        · have hfst := bounded_parallel_map_fst _ _ quickResults hq
          have hm : meta ∈ quickResults.map Prod.fst := by rw [hfst]; exact ht
          obtain ⟨pr, hpr, hpr1⟩ := List.mem_map.mp hm
          obtain ⟨c1, hc1⟩ := consumeFold_some CacheRecord.quick_hash run
            (multiGroupMembers (fun m => m.size) files) ⟨[], [], some c0, 0, 0⟩ c0 rfl
          rw [← hpr1]
          exact applyQuickFold_processed run quickResults _ c1 hc1 pr hpr

/-! ## Media pipeline (`media.py`)

Frame extraction and probing run through external tools; the pipeline
is embedded with signature computation and blob decoding abstracted as
oracles.  `_compute_signature` catches every per-file error and returns
`None`, modelled as `Option`. -/

structure MediaFileMeta where
  path : String
  size : Int
  mtime_ns : Int
  dev : Int
  ino : Int
  kind : String
  deriving DecidableEq, Repr

/-- `int(left > right)`: 1 iff the left pixel strictly exceeds the right. -/
def gtBit (left right : Nat) : Nat := if left > right then 1 else 0

/-- `dhash_from_pixels` (lines 119–138): scan each row, compare each
horizontally adjacent pixel pair, shifting the bit in from the right
(`digest = (digest << 1) | int(left > right)`).  A short buffer raises
`ValueError`. -/
def dhash_from_pixels (pixels : List Nat) (width height : Nat) : Except String Nat :=
  if pixels.length < width * height then
    .error "Not enough pixels for dHash"
  else
    .ok ((List.range height).foldl (fun digest row =>
      (List.range (width - 1)).foldl (fun digest col =>
        2 * digest +
          gtBit (pixels.getD (row * width + col) 0)
            (pixels.getD (row * width + col + 1) 0)) digest) 0)

/-- The spec's description of one dHash bit, MSB-first: bit `i` compares
the pair at row `i / 8`, column `i % 8` of the 9×8 grayscale frame and
is 1 iff the left pixel strictly exceeds the right. -/
def dhash_spec_bit (pixels : List Nat) (i : Nat) : Nat :=
  gtBit (pixels.getD (9 * (i / 8) + i % 8) 0) (pixels.getD (9 * (i / 8) + i % 8 + 1) 0)

/-- The spec's dHash: the 64 bits concatenated MSB-first. -/
def dhash_spec (pixels : List Nat) : Nat :=
  ∑ i ∈ Finset.range 64, dhash_spec_bit pixels i * 2 ^ (63 - i)

/-- Python's `int.bit_count` (population count), by structural recursion
on a fuel argument that dominates the bit length. -/
def bit_count (n : Nat) : Nat := go n n
where go : Nat → Nat → Nat
  | 0, _ => 0
  | fuel + 1, m => if m = 0 then 0 else m % 2 + go fuel (m / 2)

/-- `hamming_distance` (lines 114–116): `(left ^ right).bit_count()`. -/
def hamming_distance (left right : Nat) : Nat := bit_count (left ^^^ right)

/-- A decoded signature blob: `{kind: image, hash}` or
`{kind: video, hashes}`. -/
inductive MediaSig where
  | image (hash : Nat)
  | video (hashes : List Nat)
  deriving DecidableEq, Repr

/-- The per-pair body of the clustering loop (lines 422–448): `none`
models `continue` (pair skipped — distinct kinds, or unequal video frame
counts), `some (similar, score)` the computed verdict. -/
def pairSimilarity (left right : MediaSig)
    (image_hamming_threshold video_hamming_threshold
      video_frame_hamming_threshold : Nat) : Option (Bool × Nat) :=
  match left, right with
  | .image lh, .image rh =>
    let score := hamming_distance lh rh
    some (decide (score ≤ image_hamming_threshold), score)
  | .video lhs, .video rhs =>
    if lhs.length ≠ rhs.length then none
    else
      let frame_scores := (List.range lhs.length).map
        (fun pos => hamming_distance (lhs.getD pos 0) (rhs.getD pos 0))
      let score := frame_scores.sum
      some (decide (score ≤ video_hamming_threshold) &&
        frame_scores.all (fun v => v ≤ video_frame_hamming_threshold), score)
  | _, _ => none

set_option maxHeartbeats 2000000 in
/-- **C6**.  For every 72-byte grayscale 9×8 buffer, `dhash_from_pixels`
returns exactly the spec's 64-bit value: row-major scan, one bit per
horizontal pixel pair, 1 iff the left pixel strictly exceeds the right,
concatenated MSB-first. -/
theorem dhash_from_pixels_spec (pixels : List Nat) (hlen : pixels.length = 72) :
    dhash_from_pixels pixels 9 8 = .ok (dhash_spec pixels) := by
  unfold dhash_from_pixels
  rw [if_neg (by omega), Except.ok.injEq]
  unfold dhash_spec dhash_spec_bit
  simp only [List.range_succ, List.range_zero, List.foldl_append, List.foldl_cons,
    List.foldl_nil, Finset.sum_range_succ, Finset.sum_range_zero]
  norm_num
  ring

/-- Witness for C6 on a concrete all-zero frame. -/
theorem dhash_from_pixels_spec_witness :
    (List.replicate 72 0).length = 72 ∧
    dhash_from_pixels (List.replicate 72 0) 9 8 =
      .ok (dhash_spec (List.replicate 72 0)) :=
  ⟨by decide, dhash_from_pixels_spec (List.replicate 72 0) (by decide)⟩

theorem range_map_getD_eq_zipWith {γ : Type} (h : Nat → Nat → γ) :
    ∀ (xs ys : List Nat), xs.length = ys.length →
      (List.range xs.length).map
        (fun pos => h (xs.getD pos 0) (ys.getD pos 0)) = List.zipWith h xs ys
  | [], [], _ => rfl
  | [], _ :: _, hl => absurd hl (by simp)
  | _ :: _, [], hl => absurd hl (by simp)
  | x :: xs, y :: ys, hl => by
    have ih := range_map_getD_eq_zipWith h xs ys (by simpa using hl)
    have hmap : List.map
        ((fun pos => h ((x :: xs).getD pos 0) ((y :: ys).getD pos 0)) ∘ Nat.succ)
        (List.range xs.length) =
        List.map (fun pos => h (xs.getD pos 0) (ys.getD pos 0)) (List.range xs.length) :=
      List.map_congr_left (fun a _ => rfl)
    rw [List.length_cons, List.range_succ_eq_map, List.map_cons, List.map_map, hmap, ih,
      List.zipWith_cons_cons]
    rfl

/-- **C7**.  A video pair compared within a block is flagged similar iff
the frame counts are equal, the total of the per-frame Hamming distances
is within `video_hamming_threshold`, and every per-frame distance is
within `video_frame_hamming_threshold`; a pair with unequal frame counts
is skipped. -/
theorem video_pair_similarity (lhs rhs : List Nat) (imgThr sumThr frameThr : Nat) :
    (∀ verdict score,
      pairSimilarity (.video lhs) (.video rhs) imgThr sumThr frameThr =
          some (verdict, score) →
        score = (List.zipWith hamming_distance lhs rhs).sum ∧
        (verdict = true ↔
          (List.zipWith hamming_distance lhs rhs).sum ≤ sumThr ∧
          ∀ v ∈ List.zipWith hamming_distance lhs rhs, v ≤ frameThr)) ∧
    (pairSimilarity (.video lhs) (.video rhs) imgThr sumThr frameThr = none ↔
      lhs.length ≠ rhs.length) := by
  simp only [pairSimilarity]
  by_cases hl : lhs.length = rhs.length
  · rw [if_neg (by simpa using hl)]
    constructor
    · intro verdict score heq
      rw [Option.some.injEq, Prod.mk.injEq] at heq
      obtain ⟨hv, hsc⟩ := heq
      rw [range_map_getD_eq_zipWith hamming_distance lhs rhs hl] at hv hsc
      refine ⟨hsc.symm, ?_⟩
      rw [← hv]
      simp [List.all_eq_true]
    · simp [hl]
  · rw [if_pos (by simpa using hl)]
    constructor
    · intro verdict score heq
      exact Option.noConfusion heq
    · simp [hl]

/-- Witness for C7 at the spec's concrete boundary scenario. -/
theorem video_pair_similarity_witness :
    (∀ verdict score,
      pairSimilarity (.video [0, 0, 0, 0]) (.video [255, 255, 255, 255]) 8 32 12 =
          some (verdict, score) →
        score = (List.zipWith hamming_distance [0, 0, 0, 0] [255, 255, 255, 255]).sum ∧
        (verdict = true ↔
          (List.zipWith hamming_distance [0, 0, 0, 0] [255, 255, 255, 255]).sum ≤ 32 ∧
          ∀ v ∈ List.zipWith hamming_distance [0, 0, 0, 0] [255, 255, 255, 255],
            v ≤ 12)) ∧
    (pairSimilarity (.video [0, 0, 0, 0]) (.video [255, 255, 255, 255]) 8 32 12 =
        none ↔
      ([0, 0, 0, 0] : List Nat).length ≠ ([255, 255, 255, 255] : List Nat).length) :=
  video_pair_similarity [0, 0, 0, 0] [255, 255, 255, 255] 8 32 12

/-! ### Media signature stage (`run_media_pipeline`, lines 321–400) -/

/-- Python truthiness of an optional string column
(`record.media_sig and record.media_meta`): `None` and `""` are falsy. -/
def truthy : Option String → Bool
  | none => false
  | some s => !(s == "")

structure MediaConsumeState (σ : Type) where
  signatures : List (String × σ)
  todo : List MediaFileMeta
  cache : Option Cache
  hits : Nat
  misses : Nat

/-- One iteration of the media cache-consume loop (lines 339–372).  The
`json.loads` decoding of the stored blobs is the oracle `parse`
(`none` models `json.JSONDecodeError`).  On a hit the stored blobs are
re-upserted unchanged under the current run id. -/
def consumeMediaStage (σ : Type) (parse : String → String → Option σ)
    (run_id : String) (st : MediaConsumeState σ) (meta : MediaFileMeta) :
    MediaConsumeState σ :=
  match st.cache with
  | some c =>
    match SignatureCache.get c meta.path meta.size meta.mtime_ns meta.dev meta.ino with
    | some record =>
      if truthy record.media_sig && truthy record.media_meta then
        match parse (record.media_sig.getD "") (record.media_meta.getD "") with
        | none => { st with misses := st.misses + 1, todo := st.todo ++ [meta] }
        | some sig =>
          { st with
              hits := st.hits + 1
              signatures := dictInsert st.signatures meta.path sig
              cache := some (SignatureCache.upsert c meta.path meta.size meta.mtime_ns
                meta.dev meta.ino run_id record.quick_hash record.full_hash
                record.media_sig record.media_meta) }
      else { st with misses := st.misses + 1, todo := st.todo ++ [meta] }
    | none => { st with misses := st.misses + 1, todo := st.todo ++ [meta] }
  | none => { st with todo := st.todo ++ [meta] }

structure MediaApplyState (σ : Type) where
  signatures : List (String × σ)
  cache : Option Cache

/-- Consuming one `_compute_signature` worker result (lines 385–400):
`none` — a logged per-file probe or extraction failure — is skipped
entirely (no cache write); otherwise the signature is recorded and its
encoded blobs upserted under the run id. -/
def applyMediaOne (σ : Type) (encode : σ → String × String) (run_id : String)
    (st : MediaApplyState σ) (x : MediaFileMeta × Option σ) : MediaApplyState σ :=
  match x.2 with
  | none => st
  | some sig =>
    { signatures := dictInsert st.signatures x.1.path sig
      cache := match st.cache with
        | some c => some (SignatureCache.upsert c x.1.path x.1.size x.1.mtime_ns
            x.1.dev x.1.ino run_id none none (some (encode sig).1)
            (some (encode sig).2))
        | none => none }

/-- The candidate filter (lines 321–325): files moved by the exact stage
and files of non-media kind are excluded. -/
def mediaCandidates (files : List MediaFileMeta) (moved_paths : List String) :
    List MediaFileMeta :=
  files.filter (fun meta =>
    !moved_paths.contains meta.path && (meta.kind == "image" || meta.kind == "video"))

/-- The signature-gathering phase of `run_media_pipeline`
(lines 321–400): consume cached signatures, then compute the rest
through the worker pool (`_compute_signature` returns `none` instead of
raising, so the map never propagates an exception). -/
def mediaSignatureStage (σ : Type) (parse : String → String → Option σ)
    (encode : σ → String × String) (compute : MediaFileMeta → Option σ)
    (files : List MediaFileMeta) (moved_paths : List String)
    (cache0 : Option Cache) (run_id : String) : MediaApplyState σ :=
  let st := (mediaCandidates files moved_paths).foldl
    (consumeMediaStage σ parse run_id) ⟨[], [], cache0, 0, 0⟩
  (st.todo.map (fun m => (m, compute m))).foldl
    (applyMediaOne σ encode run_id) ⟨st.signatures, st.cache⟩

theorem dictInsert_mem {β : Type} (d : List (String × β)) (k : String) (v : β) :
    ∀ x ∈ dictInsert d k v, x ∈ d ∨ x.1 = k := by
  intro x hx
  unfold dictInsert at hx
  by_cases ha : d.any (fun kv => kv.1 == k) = true
  · rw [if_pos ha] at hx
    obtain ⟨y, hy, hxy⟩ := List.mem_map.mp hx
    by_cases hyk : (y.1 == k) = true
    · rw [if_pos hyk] at hxy
      exact Or.inr (by rw [← hxy])
    · rw [if_neg hyk] at hxy
      exact Or.inl (hxy ▸ hy)
  · rw [if_neg ha] at hx
    rcases List.mem_append.mp hx with h | h
    · exact Or.inl h
    · exact Or.inr (by rw [List.mem_singleton.mp h])

theorem consumeMediaStage_inv (σ : Type) (parse : String → String → Option σ)
    (run_id : String) (st : MediaConsumeState σ) (meta : MediaFileMeta) (c : Cache)
    (hc : st.cache = some c)
    (hinv : ∀ y ∈ st.signatures, stamped c run_id y.1) :
    ∃ c', (consumeMediaStage σ parse run_id st meta).cache = some c' ∧
      ∀ y ∈ (consumeMediaStage σ parse run_id st meta).signatures,
        stamped c' run_id y.1 := by
  unfold consumeMediaStage
  rw [hc]
  dsimp only
  cases hget : SignatureCache.get c meta.path meta.size meta.mtime_ns meta.dev meta.ino with
  | none => exact ⟨c, rfl, hinv⟩
  | some record =>
    dsimp only
    cases htr : truthy record.media_sig && truthy record.media_meta
    · rw [if_neg (by simp [htr])]
      exact ⟨c, rfl, hinv⟩
    · rw [if_pos (by simp [htr])]
      cases hp : parse (record.media_sig.getD "") (record.media_meta.getD "") with
      | none => exact ⟨c, rfl, hinv⟩
      | some sig =>
        dsimp only
        refine ⟨_, rfl, ?_⟩
        intro y hy
        rcases dictInsert_mem st.signatures meta.path sig y hy with hmem | hkey
        · exact stamped_upsert_mono c meta.path meta.size meta.mtime_ns meta.dev
            meta.ino run_id record.quick_hash record.full_hash record.media_sig
            record.media_meta (hinv y hmem)
        · rw [hkey]
          exact stamped_upsert_self c meta.path meta.size meta.mtime_ns meta.dev
            meta.ino run_id record.quick_hash record.full_hash record.media_sig
            record.media_meta

theorem consumeMediaFold_inv (σ : Type) (parse : String → String → Option σ)
    (run_id : String) :
    ∀ (cands : List MediaFileMeta) (st : MediaConsumeState σ) (c : Cache),
      st.cache = some c →
      (∀ y ∈ st.signatures, stamped c run_id y.1) →
      ∃ c', (cands.foldl (consumeMediaStage σ parse run_id) st).cache = some c' ∧
        ∀ y ∈ (cands.foldl (consumeMediaStage σ parse run_id) st).signatures,
          stamped c' run_id y.1
  | [], st, c, hc, hinv => ⟨c, hc, hinv⟩
  | meta :: cs, st, c, hc, hinv => by
    rw [List.foldl_cons]
    obtain ⟨c1, hc1, hinv1⟩ := consumeMediaStage_inv σ parse run_id st meta c hc hinv
    exact consumeMediaFold_inv σ parse run_id cs _ c1 hc1 hinv1

theorem applyMediaOne_inv (σ : Type) (encode : σ → String × String) (run_id : String)
    (st : MediaApplyState σ) (x : MediaFileMeta × Option σ) (c : Cache)
    (hc : st.cache = some c)
    (hinv : ∀ y ∈ st.signatures, stamped c run_id y.1) :
    ∃ c', (applyMediaOne σ encode run_id st x).cache = some c' ∧
      ∀ y ∈ (applyMediaOne σ encode run_id st x).signatures, stamped c' run_id y.1 := by
  unfold applyMediaOne
  cases hx2 : x.2 with
  | none => exact ⟨c, hc, hinv⟩
  | some sig =>
    dsimp only
    rw [hc]
    refine ⟨_, rfl, ?_⟩
    intro y hy
    rcases dictInsert_mem st.signatures x.1.path sig y hy with hmem | hkey
    · exact stamped_upsert_mono c x.1.path x.1.size x.1.mtime_ns x.1.dev x.1.ino
        run_id none none (some (encode sig).1) (some (encode sig).2) (hinv y hmem)
    · rw [hkey]
      exact stamped_upsert_self c x.1.path x.1.size x.1.mtime_ns x.1.dev x.1.ino
        run_id none none (some (encode sig).1) (some (encode sig).2)

theorem applyMediaFold_inv (σ : Type) (encode : σ → String × String) (run_id : String) :
    ∀ (rs : List (MediaFileMeta × Option σ)) (st : MediaApplyState σ) (c : Cache),
      st.cache = some c →
      (∀ y ∈ st.signatures, stamped c run_id y.1) →
      ∃ c', (rs.foldl (applyMediaOne σ encode run_id) st).cache = some c' ∧
        ∀ y ∈ (rs.foldl (applyMediaOne σ encode run_id) st).signatures,
          stamped c' run_id y.1
  | [], st, c, hc, hinv => ⟨c, hc, hinv⟩
  | x :: xs, st, c, hc, hinv => by
    rw [List.foldl_cons]
    obtain ⟨c1, hc1, hinv1⟩ := applyMediaOne_inv σ encode run_id st x c hc hinv
    exact applyMediaFold_inv σ encode run_id xs _ c1 hc1 hinv1

/-- Every path whose media signature was obtained (by cache hit or
successful computation) has its cache row stamped with the current run
id at the end of the signature stage. -/
theorem mediaSignatureStage_stamps (σ : Type) (parse : String → String → Option σ)
    (encode : σ → String × String) (compute : MediaFileMeta → Option σ)
    (files : List MediaFileMeta) (moved_paths : List String) (c0 : Cache)
    (run_id : String) :
    ∃ c', (mediaSignatureStage σ parse encode compute files moved_paths
        (some c0) run_id).cache = some c' ∧
      ∀ y ∈ (mediaSignatureStage σ parse encode compute files moved_paths
          (some c0) run_id).signatures, stamped c' run_id y.1 := by
  unfold mediaSignatureStage
  obtain ⟨c1, hc1, hinv1⟩ := consumeMediaFold_inv σ parse run_id
    (mediaCandidates files moved_paths) ⟨[], [], some c0, 0, 0⟩ c0 rfl
    (fun y hy => absurd hy (List.not_mem_nil y))
  exact applyMediaFold_inv σ encode run_id _ _ c1 hc1 hinv1

theorem mergeField_false_self (o : Option String) : mergeField false o o = o := by
  cases o <;> simp [mergeField]

/-- A cache-hit re-upsert — passing back every stored fingerprint under
the current run id — rewrites the row to its old value with only
`last_seen_run` updated. -/
theorem hit_reupsert_only_stamps (c : Cache) (p : String) (s m d i : Int)
    (run : String) (rec : CacheRecord) (hwf : cacheWf c)
    (hget : SignatureCache.get c p s m d i = some rec) :
    SignatureCache.upsert c p s m d i run rec.quick_hash rec.full_hash
        rec.media_sig rec.media_meta =
      c.map (fun r => if r.path == p then { r with last_seen_run := run } else r) := by
  unfold SignatureCache.get at hget
  cases hfind : c.find? (fun r =>
      r.path == p && r.size == s && r.mtime_ns == m && r.dev == d && r.ino == i) with
  | none =>
    rw [hfind] at hget
    exact absurd hget (by simp)
  | some w =>
    rw [hfind] at hget
    dsimp only at hget
    rw [Option.some.injEq] at hget
    have hw := List.find?_some hfind
    have hmem := List.mem_of_find?_eq_some hfind
    simp only [Bool.and_eq_true, beq_iff_eq] at hw
    unfold SignatureCache.upsert
    rw [if_pos (List.any_eq_true.mpr ⟨w, hmem, by simp [hw.1.1.1.1]⟩)]
    apply List.map_congr_left
    intro r hr
    by_cases hrp : (r.path == p) = true
    · rw [if_pos hrp, if_pos hrp]
      have hrw : r = w := List.inj_on_of_nodup_map hwf hr hmem (by
        rw [beq_iff_eq.mp hrp, hw.1.1.1.1])
      subst hrw
      rw [← hget]
      have hid : identityChanged r s m d i = false := by
        simp [identityChanged, hw.1.1.1.2, hw.1.1.2, hw.1.2, hw.2]
      unfold mergeRow
      rw [hid]
      simp [mergeField_false_self, hw.1.1.1.2, hw.1.1.2, hw.1.2, hw.2]
    · rw [if_neg hrp, if_neg hrp]

/-- **C10** (counterexample).  A media candidate whose signature
computation fails is not re-stamped: its stale cache row keeps the
previous run id and is deleted by `prune_stale`, so not every file of
the candidate set has its row stamped with the current run id. -/
theorem media_failed_compute_not_stamped :
    (⟨"/v", 1, 2, 3, 4, "video"⟩ : MediaFileMeta) ∈
      mediaCandidates [⟨"/v", 1, 2, 3, 4, "video"⟩] [] ∧
    (mediaSignatureStage Unit (fun _ _ => none) (fun _ => ("", "")) (fun _ => none)
        [⟨"/v", 1, 2, 3, 4, "video"⟩] []
        (some [⟨"/v", 1, 2, 3, 4, none, none, none, none, "old"⟩]) "new").cache =
      some [⟨"/v", 1, 2, 3, 4, none, none, none, none, "old"⟩] ∧
    SignatureCache.prune_stale [⟨"/v", 1, 2, 3, 4, none, none, none, none, "old"⟩]
        "new" = [] :=
  ⟨by decide, rfl, rfl⟩

/-- **C10** (amended).  A cache hit is immediately re-upserted with every
stored fingerprint passed back unchanged, so the row changes only in
`last_seen_run`; every file of the exact pipeline's candidate set, and
every media candidate whose signature is obtained (cache hit or
successful computation), has its row stamped with the current run id and
survives `prune_stale`; a media candidate whose signature computation
fails keeps its stale row and is pruned. -/
theorem run_id_stamping :
    (∀ (c : Cache) (p : String) (s m d i : Int) (run : String) (rec : CacheRecord),
      cacheWf c → SignatureCache.get c p s m d i = some rec →
      SignatureCache.upsert c p s m d i run rec.quick_hash rec.full_hash
          rec.media_sig rec.media_meta =
        c.map (fun r => if r.path == p then { r with last_seen_run := run } else r)) ∧
    (∀ (files : List ExactFileMeta) (qh : String → Int → Except String (String × Nat))
        (fh : String → Except String (String × Nat))
        (cmp : String → String → Bool × Nat) (mv : String → Except String String)
        (c0 : Cache) (run : String) (res : ExactPipelineResult) (oc : Option Cache)
        (ev : List LogEvent),
      run_exact_pipeline files qh fh cmp mv (some c0) run = .ok (res, oc, ev) →
      ∀ meta ∈ multiGroupMembers (fun m => m.size) files,
        ∃ c', oc = some c' ∧
          ∃ r ∈ SignatureCache.prune_stale c' run, r.path = meta.path) ∧
    (∀ (σ : Type) (parse : String → String → Option σ)
        (encode : σ → String × String) (compute : MediaFileMeta → Option σ)
        (files : List MediaFileMeta) (moved_paths : List String) (c0 : Cache)
        (run_id : String),
      ∃ c', (mediaSignatureStage σ parse encode compute files moved_paths
          (some c0) run_id).cache = some c' ∧
        ∀ y ∈ (mediaSignatureStage σ parse encode compute files moved_paths
            (some c0) run_id).signatures,
          ∃ r ∈ SignatureCache.prune_stale c' run_id, r.path = y.1) := by
  refine ⟨hit_reupsert_only_stamps, ?_, ?_⟩
  · intro files qh fh cmp mv c0 run res oc ev hrun meta hmeta
    obtain ⟨c', hc', r, hrmem, hrp, hrl⟩ :=
      run_exact_stamps files qh fh cmp mv c0 run res oc ev hrun meta hmeta
    exact ⟨c', hc', r, (mem_prune_stale c' run r).mpr ⟨hrmem, hrl⟩, hrp⟩
  · intro σ parse encode compute files moved c0 run_id
    obtain ⟨c', hc', hinv⟩ :=
      mediaSignatureStage_stamps σ parse encode compute files moved c0 run_id
    refine ⟨c', hc', ?_⟩
    intro y hy
    obtain ⟨r, hrmem, hrp, hrl⟩ := hinv y hy
    exact ⟨r, (mem_prune_stale c' run_id r).mpr ⟨hrmem, hrl⟩, hrp⟩

/-- Witness for C10: a concrete hit re-upsert that only updates the
stamp, and a concrete two-file exact run whose candidate file "/a" has
a row surviving the prune. -/
theorem run_id_stamping_witness :
    (SignatureCache.upsert [⟨"p", 1, 2, 3, 4, some "q", none, none, none, "r1"⟩]
        "p" 1 2 3 4 "r2" (some "q") none none none =
      [(⟨"p", 1, 2, 3, 4, some "q", none, none, none, "r1"⟩ : Row)].map
        (fun r => if r.path == "p" then { r with last_seen_run := "r2" } else r)) ∧
    (∃ c', (some [(⟨"/a", 1, 5, 0, 0, some "h", some "f", none, none, "run1"⟩ : Row),
          ⟨"/b", 1, 6, 0, 1, some "h", some "f", none, none, "run1"⟩] :
            Option Cache) = some c' ∧
      ∃ r ∈ SignatureCache.prune_stale c' "run1", r.path = "/a") :=
  ⟨run_id_stamping.1 [⟨"p", 1, 2, 3, 4, some "q", none, none, none, "r1"⟩]
      "p" 1 2 3 4 "r2" ⟨some "q", none, none, none⟩
      (by unfold cacheWf; decide) (by decide),
    run_id_stamping.2.1 [⟨"/a", 1, 5, 0, 0⟩, ⟨"/b", 1, 6, 0, 1⟩]
      (fun _ _ => .ok ("h", 2)) (fun _ => .ok ("f", 1)) (fun _ _ => (true, 3))
      (fun p => .ok ("/dup" ++ p)) [] "run1"
      ⟨[⟨"/b", "/dup/b", "/a"⟩], ["/b"], 6, 3, 0, 4⟩
      (some [⟨"/a", 1, 5, 0, 0, some "h", some "f", none, none, "run1"⟩,
        ⟨"/b", 1, 6, 0, 1, some "h", some "f", none, none, "run1"⟩]) []
      rfl ⟨"/a", 1, 5, 0, 0⟩ (by decide)⟩

/-! ## Orchestrator configuration validation (`sieve.py`, lines 230–250)

Python raises `ValueError` for invalid configuration; the spec names
this condition `ConfigurationError`.  The filesystem facts the
`dup_dir` validator queries are explicit inputs. -/

/-- A merged configuration value as the Python runtime sees it: an
`int`, or a value of some other type (`isinstance(value, int)` fails). -/
inductive ConfigValue where
  | int (n : Int)
  | notInt
  deriving DecidableEq, Repr

/-- The filesystem facts `Sieve.__validate_dup_dir` observes about the
resolved duplicate directory. -/
structure DupDirFs where
  pathExists : Bool
  isDir : Bool
  canCreate : Bool
  writable : Bool
  deriving DecidableEq, Repr

/-- `Sieve.__validate_dup_dir` (lines 275–291). -/
def validate_dup_dir (fs : DupDirFs) (dup_dir : String) : Except String String :=
  if fs.pathExists && !fs.isDir then
    .error ("Invalid config value for dup_dir: not a directory: " ++ dup_dir)
  else if !fs.canCreate then
    .error ("Invalid config value for dup_dir: cannot create directory " ++ dup_dir)
  else if !fs.writable then
    .error ("Invalid config value for dup_dir: directory is not writable: " ++ dup_dir)
  else .ok dup_dir

/-- `Sieve.__validate_mode` (lines 293–296). -/
def validate_mode (mode : String) : Except String String :=
  if mode == "exact" || mode == "media" then .ok mode
  else .error ("Invalid mode " ++ mode ++ "; expected exact or media")

/-- `Sieve.__validate_positive_int` (lines 310–315). -/
def validate_positive_int (field_name : String) (value : ConfigValue) :
    Except String Int :=
  match value with
  | .notInt =>
    .error ("Invalid config value for " ++ field_name ++ ": must be an integer")
  | .int n =>
    if n ≤ 0 then
      .error ("Invalid config value for " ++ field_name ++ ": must be greater than 0")
    else .ok n

/-- `Sieve.__validate_non_negative_int` (lines 317–322). -/
def validate_non_negative_int (field_name : String) (value : ConfigValue) :
    Except String Int :=
  match value with
  | .notInt =>
    .error ("Invalid config value for " ++ field_name ++ ": must be an integer")
  | .int n =>
    if n < 0 then
      .error ("Invalid config value for " ++ field_name ++ ": must be >= 0")
    else .ok n

/-- The merged (defaults < config file < constructor arguments)
configuration reaching the validation chain. -/
structure SieveConfig where
  dup_dir : String
  dupFs : DupDirFs
  mode : String
  hash_workers : ConfigValue
  media_workers : ConfigValue
  image_hamming_threshold : ConfigValue
  video_hamming_threshold : ConfigValue
  video_frame_hamming_threshold : ConfigValue
  duration_bucket_seconds : ConfigValue
  deriving DecidableEq, Repr

structure ValidatedSieve where
  dup_dir : String
  mode : String
  hash_workers : Int
  media_workers : Int
  image_hamming_threshold : Int
  video_hamming_threshold : Int
  video_frame_hamming_threshold : Int
  duration_bucket_seconds : Int
  deriving DecidableEq, Repr

/-- The validation chain of `Sieve.__init__` (lines 230–250), in source
order; the first raised `ValueError` propagates.  Cache-path validation
(line 233) only creates directories and is omitted. -/
def sieve_init_validate (cfg : SieveConfig) : Except String ValidatedSieve :=
  match validate_dup_dir cfg.dupFs cfg.dup_dir with
  | .error e => .error e
  | .ok dup_dir =>
    match validate_mode cfg.mode with
    | .error e => .error e
    | .ok mode =>
      match validate_positive_int "hash_workers" cfg.hash_workers with
      | .error e => .error e
      | .ok hash_workers =>
        match validate_positive_int "media_workers" cfg.media_workers with
        | .error e => .error e
        | .ok media_workers =>
          match validate_non_negative_int "image_hamming_threshold"
              cfg.image_hamming_threshold with
          | .error e => .error e
          | .ok image =>
            match validate_non_negative_int "video_hamming_threshold"
                cfg.video_hamming_threshold with
            | .error e => .error e
            | .ok video =>
              match validate_non_negative_int "video_frame_hamming_threshold"
                  cfg.video_frame_hamming_threshold with
              | .error e => .error e
              | .ok frame =>
                match validate_positive_int "duration_bucket_seconds"
                    cfg.duration_bucket_seconds with
                | .error e => .error e
                | .ok bucket =>
                  .ok ⟨dup_dir, mode, hash_workers, media_workers, image, video,
                    frame, bucket⟩

theorem validate_dup_dir_ok {fs : DupDirFs} {d x : String}
    (h : validate_dup_dir fs d = .ok x) : fs.writable = true := by
  unfold validate_dup_dir at h
  split at h
  · exact Except.noConfusion h
  · split at h
    · exact Except.noConfusion h
    · split at h
      · exact Except.noConfusion h
      · rename_i hw
        simpa using hw

theorem validate_mode_ok {m x : String} (h : validate_mode m = .ok x) :
    m = "exact" ∨ m = "media" := by
  unfold validate_mode at h
  split at h
  · rename_i hm
    simpa using hm
  · exact Except.noConfusion h

theorem validate_positive_int_ok {name : String} {v : ConfigValue} {x : Int}
    (h : validate_positive_int name v = .ok x) : ∃ n, v = .int n ∧ 0 < n := by
  unfold validate_positive_int at h
  cases v with
  | notInt => exact Except.noConfusion h
  | int n =>
    dsimp only at h
    split at h
    · exact Except.noConfusion h
    · rename_i hn
      exact ⟨n, rfl, by omega⟩

theorem validate_non_negative_int_ok {name : String} {v : ConfigValue} {x : Int}
    (h : validate_non_negative_int name v = .ok x) : ∃ n, v = .int n ∧ 0 ≤ n := by
  unfold validate_non_negative_int at h
  cases v with
  | notInt => exact Except.noConfusion h
  | int n =>
    dsimp only at h
    split at h
    · exact Except.noConfusion h
    · rename_i hn
      exact ⟨n, rfl, by omega⟩

/-- **C9** (counterexample).  A configuration whose three Hamming
thresholds are all 0 — non-positive — passes validation; only negative
thresholds are rejected. -/
theorem zero_thresholds_accepted :
    sieve_init_validate ⟨"/dup", ⟨true, true, true, true⟩, "exact",
        .int 4, .int 2, .int 0, .int 0, .int 0, .int 2⟩ =
      .ok ⟨"/dup", "exact", 4, 2, 0, 0, 0, 2⟩ := rfl

/-- **C9** (amended).  Construction rejects — raising `ValueError`, the
condition the spec names `ConfigurationError` — any configuration whose
effective mode is neither "exact" nor "media", whose duplicate directory
is not writable, whose worker counts are not integers, or whose Hamming
thresholds are negative; zero-valued thresholds are accepted. -/
theorem sieve_init_rejects (cfg : SieveConfig)
    (hbad :
      (cfg.mode ≠ "exact" ∧ cfg.mode ≠ "media") ∨
      cfg.dupFs.writable = false ∨
      cfg.hash_workers = .notInt ∨
      cfg.media_workers = .notInt ∨
      (∃ n, cfg.image_hamming_threshold = .int n ∧ n < 0) ∨
      (∃ n, cfg.video_hamming_threshold = .int n ∧ n < 0) ∨
      (∃ n, cfg.video_frame_hamming_threshold = .int n ∧ n < 0)) :
    ∃ e, sieve_init_validate cfg = .error e := by
  cases hres : sieve_init_validate cfg with
  | error e => exact ⟨e, rfl⟩
  | ok v =>
    exfalso
    unfold sieve_init_validate at hres
    split at hres
    next e h1 => exact Except.noConfusion hres
    next dup_dir h1 =>
    split at hres
    next e h2 => exact Except.noConfusion hres
    next mode h2 =>
    split at hres
    next e h3 => exact Except.noConfusion hres
    next hw h3 =>
    split at hres
    next e h4 => exact Except.noConfusion hres
    next mw h4 =>
    split at hres
    next e h5 => exact Except.noConfusion hres
    next image h5 =>
    split at hres
    next e h6 => exact Except.noConfusion hres
    next video h6 =>
    split at hres
    next e h7 => exact Except.noConfusion hres
    next frame h7 =>
    split at hres
    next e h8 => exact Except.noConfusion hres
    next bucket h8 =>
    rcases hbad with ⟨hm1, hm2⟩ | hwb | hnb | hnb |
      ⟨n, hn, hneg⟩ | ⟨n, hn, hneg⟩ | ⟨n, hn, hneg⟩
    · rcases validate_mode_ok h2 with h | h
      · exact hm1 h
      · exact hm2 h
    · rw [validate_dup_dir_ok h1] at hwb
      exact Bool.noConfusion hwb
    · obtain ⟨n, hn, -⟩ := validate_positive_int_ok h3
      rw [hnb] at hn
      exact ConfigValue.noConfusion hn
    · obtain ⟨n, hn, -⟩ := validate_positive_int_ok h4
      rw [hnb] at hn
      exact ConfigValue.noConfusion hn
    · obtain ⟨n', hn', hge⟩ := validate_non_negative_int_ok h5
      rw [hn] at hn'
      rw [ConfigValue.int.injEq] at hn'
      omega
    · obtain ⟨n', hn', hge⟩ := validate_non_negative_int_ok h6
      rw [hn] at hn'
      rw [ConfigValue.int.injEq] at hn'
      omega
    · obtain ⟨n', hn', hge⟩ := validate_non_negative_int_ok h7
      rw [hn] at hn'
      rw [ConfigValue.int.injEq] at hn'
      omega

/-- Witness for C9: an invalid mode is rejected. -/
theorem sieve_init_rejects_witness :
    (("bogus" : String) ≠ "exact" ∧ ("bogus" : String) ≠ "media") ∧
    ∃ e, sieve_init_validate ⟨"/dup", ⟨true, true, true, true⟩, "bogus",
        .int 4, .int 2, .int 8, .int 32, .int 12, .int 2⟩ = .error e :=
  ⟨by decide,
    sieve_init_rejects ⟨"/dup", ⟨true, true, true, true⟩, "bogus",
      .int 4, .int 2, .int 8, .int 32, .int 12, .int 2⟩ (Or.inl (by decide))⟩

end FileSieve
